/-
  Verification of the AXI-lite RAM slave model (cocotbext-axi, axil_ram.py).

  The write and read transaction engines (`AxiLiteRamWrite._process_write`,
  `AxiLiteRamRead._process_read`) and the reset handlers are embedded as
  pure Lean functions.  The backing `Memory` object (seek/read/write byte
  buffer) is external to the repository source; it is modelled from the
  spec's backing-store contract: a fixed-size byte sequence whose accesses
  are taken modulo the store size (address aliasing, not an error).
-/
import Mathlib

namespace AxilRam

/-- `AxiResp.OKAY` success response code (AXI: 0b00). -/
def OKAY : Nat := 0

/-- Modelled from the spec: the fixed "non-secure" default protection value
substituted when the `awprot`/`arprot` wire is absent
(`AxiProt.NONSECURE`, from the external constants module). -/
def NONSECURE : Nat := 2

/-- A write-address beat: `awaddr`, plus the optional `awprot` wire. -/
structure AWBeat where
  awaddr : Nat
  awprot : Option Nat
deriving Repr, DecidableEq

/-- A write-data beat: `wdata`, plus the optional `wstrb` wire. -/
structure WBeat where
  wdata : Nat
  wstrb : Option Nat
deriving Repr, DecidableEq

/-- A write-response beat: `bresp`. -/
structure BBeat where
  bresp : Nat
deriving Repr, DecidableEq

/-- A read-address beat: `araddr`, plus the optional `arprot` wire. -/
structure ARBeat where
  araddr : Nat
  arprot : Option Nat
deriving Repr, DecidableEq

/-- A read-data beat: `rdata` and `rresp`. -/
structure RBeat where
  rdata : Nat
  rresp : Nat
deriving Repr, DecidableEq

/-- Modelled from the spec: the backing store (the external `Memory` class):
a byte sequence of fixed size together with a current position, accessed
seek/read/write style; every byte access is taken modulo the store size. -/
structure Mem where
  data : List Nat
  pos : Nat
deriving Repr, DecidableEq

/-- Absolute seek: `mem.seek(p)`. -/
def Mem.seek (m : Mem) (p : Nat) : Mem :=
  { m with pos := p }

/-- Relative seek by one byte: `mem.seek(1, 1)`. -/
def Mem.skip1 (m : Mem) : Mem :=
  { m with pos := m.pos + 1 }

/-- Write one byte at the current position (position advances); the offset
wraps modulo the store size per the backing-store contract. -/
def Mem.write1 (m : Mem) (b : Nat) : Mem :=
  { data := m.data.set (m.pos % m.data.length) b, pos := m.pos + 1 }

/-- Read `n` bytes starting at the current position (position advances);
offsets wrap modulo the store size per the backing-store contract. -/
def Mem.read : Mem → Nat → Mem × List Nat
  | m, 0 => (m, [])
  | m, n + 1 =>
      let b := m.data.getD (m.pos % m.data.length) 0
      let r := Mem.read { m with pos := m.pos + 1 } n
      (r.1, b :: r.2)

/-- `data.to_bytes(byte_lanes, 'little')`: decompose `x` into `n` bytes,
lowest-order byte first. -/
def toBytesLE : Nat → Nat → List Nat
  | 0, _ => []
  | n + 1, x => x % 256 :: toBytesLE n (x / 256)

/-- `int.from_bytes(data, 'little')`: pack a byte list little-endian. -/
def fromBytesLE : List Nat → Nat
  | [] => 0
  | b :: bs => b + 256 * fromBytesLE bs

/-- `prot = AxiProt(getattr(aw, 'awprot', AxiProt.NONSECURE))`. -/
def resolveAWProt (aw : AWBeat) : Nat :=
  aw.awprot.getD NONSECURE

/-- `prot = AxiProt(getattr(ar, 'arprot', AxiProt.NONSECURE))`. -/
def resolveARProt (ar : ARBeat) : Nat :=
  ar.arprot.getD NONSECURE

/-- `strb = int(getattr(w, 'wstrb', self.strb_mask))` where
`strb_mask = 2**byte_lanes - 1`. -/
def resolveWStrb (byteLanes : Nat) (w : WBeat) : Nat :=
  w.wstrb.getD (2 ^ byteLanes - 1)

/-- The strobed byte-lane loop of `_process_write`:
`for i in range(byte_lanes): if strb & (1 << i): mem.write(data[i:i+1])
else: mem.seek(1, 1)`. -/
def writeLanes (strb : Nat) (bytes : List Nat) : Mem → List Nat → Mem
  | m, [] => m
  | m, i :: is =>
      if strb &&& (1 <<< i) ≠ 0 then
        writeLanes strb bytes (m.write1 (bytes.getD i 0)) is
      else
        writeLanes strb bytes m.skip1 is

/-- One iteration of `AxiLiteRamWrite._process_write`: receive `aw` and `w`,
compute the lane-aligned address, seek, write the strobed bytes, and build
the `OKAY` response beat. -/
def writeStep (byteLanes : Nat) (m : Mem) (aw : AWBeat) (w : WBeat) :
    Mem × BBeat :=
  let addr := aw.awaddr / byteLanes * byteLanes
  let strb := resolveWStrb byteLanes w
  let m1 := m.seek (addr % m.data.length)
  let bytes := toBytesLE byteLanes w.wdata
  let m2 := writeLanes strb bytes m1 (List.range byteLanes)
  (m2, { bresp := OKAY })

/-- One iteration of `AxiLiteRamRead._process_read`: receive `ar`, compute
the lane-aligned address, seek, read `byte_lanes` bytes, and build the
read-data beat with the bytes packed little-endian and `rresp = OKAY`. -/
def readStep (byteLanes : Nat) (m : Mem) (ar : ARBeat) : Mem × RBeat :=
  let addr := ar.araddr / byteLanes * byteLanes
  let m1 := m.seek (addr % m.data.length)
  let r := m1.read byteLanes
  (r.1, { rdata := fromBytesLE r.2, rresp := OKAY })

/-- Observable events of the write engine loop, in program order. -/
inductive WrEvent where
  | recvAW (aw : AWBeat)
  | recvW (w : WBeat)
  | storeWrite
  | sendB (b : BBeat)
deriving Repr, DecidableEq

/-- The write engine loop run over queued address and data beats: each
iteration receives one address beat, then one data beat, mutates the store,
then sends one response.  The loop blocks (emitting nothing further) when
either queue is exhausted; an address beat with no matching data beat is
consumed before the engine blocks awaiting write data. -/
def processWrites (byteLanes : Nat) (m : Mem) :
    List AWBeat → List WBeat → Mem × List BBeat × List WrEvent
  | aw :: aws, w :: ws =>
      let r := writeStep byteLanes m aw w
      let rest := processWrites byteLanes r.1 aws ws
      (rest.1, r.2 :: rest.2.1,
        .recvAW aw :: .recvW w :: .storeWrite :: .sendB r.2 :: rest.2.2)
  | aw :: _, [] => (m, [], [.recvAW aw])
  | [], _ => (m, [], [])

/-- The read engine loop run over queued address beats: each iteration
receives one address beat, reads the store, and sends one read-data beat. -/
def processReads (byteLanes : Nat) (m : Mem) :
    List ARBeat → Mem × List RBeat
  | [] => (m, [])
  | ar :: ars =>
      let r := readStep byteLanes m ar
      let rest := processReads byteLanes r.1 ars
      (rest.1, r.2 :: rest.2)

/-- The value a read of `byteLanes` bytes at address `a` observes in store
contents `d`: the bytes at the wrapped lane offsets, packed little-endian. -/
def readValue (byteLanes : Nat) (d : List Nat) (a : Nat) : Nat :=
  fromBytesLE ((List.range byteLanes).map
    (fun i => d.getD ((a / byteLanes * byteLanes + i) % d.length) 0))

/-- Reset-relevant state of the write interface: whether a coroutine handle
is held (`_process_write_cr is not None`), how many live instances of the
processing loop exist, and the three channel queues. -/
structure WriteCtrl where
  cr : Bool
  live : Nat
  awq : List AWBeat
  wq : List WBeat
  bq : List BBeat
deriving Repr, DecidableEq

/-- `AxiLiteRamWrite._handle_reset`: on assertion, kill the task if one is
running and clear the aw/w/b queues; on deassertion, fork the processing
loop only if no handle is held. -/
def WriteCtrl.handleReset (s : WriteCtrl) (state : Bool) : WriteCtrl :=
  if state then
    let s1 := if s.cr then { s with cr := false, live := s.live - 1 } else s
    { s1 with awq := [], wq := [], bq := [] }
  else
    if s.cr then s else { s with cr := true, live := s.live + 1 }

/-- Reset-relevant state of the read interface. -/
structure ReadCtrl where
  cr : Bool
  live : Nat
  arq : List ARBeat
  rq : List RBeat
deriving Repr, DecidableEq

/-- `AxiLiteRamRead._handle_reset`: on assertion, kill the task if one is
running and clear the ar/r queues; on deassertion, fork the processing loop
only if no handle is held. -/
def ReadCtrl.handleReset (s : ReadCtrl) (state : Bool) : ReadCtrl :=
  if state then
    let s1 := if s.cr then { s with cr := false, live := s.live - 1 } else s
    { s1 with arq := [], rq := [] }
  else
    if s.cr then s else { s with cr := true, live := s.live + 1 }

/-- Construction-time checks of `AxiLiteRamWrite.__init__`:
`assert byte_lanes == len(wstrb)` and `assert byte_lanes * byte_size == width`
with `byte_lanes = width // 8`, `byte_size = 8`. -/
def writeConfigOk (width strbWidth : Nat) : Bool :=
  let byteLanes := width / 8
  byteLanes == strbWidth && byteLanes * 8 == width

/-- Construction-time check of `AxiLiteRamRead.__init__`:
`assert byte_lanes * byte_size == width`. -/
def readConfigOk (width : Nat) : Bool :=
  (width / 8) * 8 == width

/-- The composite slave constructs the write interface then the read
interface; construction proceeds past the checks iff both pass. -/
def slaveConfigOk (width strbWidth : Nat) : Bool :=
  writeConfigOk width strbWidth && readConfigOk width

/-! ### Helper lemmas -/

theorem getD_set_ne (l : List Nat) (i j b : Nat) (h : i ≠ j) :
    (l.set i b).getD j 0 = l.getD j 0 := by
  simp [List.getD_eq_getElem?_getD, List.getElem?_set_ne h]

theorem getD_set_self (l : List Nat) (i b : Nat) (h : i < l.length) :
    (l.set i b).getD i 0 = b := by
  simp [List.getD_eq_getElem?_getD, List.getElem?_set_self h]

theorem mod_add_ne (len p i : Nat) (h0 : 0 < i) (hlen : i < len) :
    (p + i) % len ≠ p % len := by
  intro h
  have hmod : p ≡ p + i [MOD len] := h.symm
  rw [Nat.modEq_iff_dvd' (Nat.le_add_right p i)] at hmod
  rw [Nat.add_sub_cancel_left] at hmod
  have := Nat.le_of_dvd h0 hmod
  omega

theorem and_shiftLeft_ne_zero (strb i : Nat) :
    (strb &&& (1 <<< i) ≠ 0) ↔ strb.testBit i = true := by
  rw [Nat.one_shiftLeft, Nat.and_two_pow]
  cases h : strb.testBit i
  · simp [h]
  · simp [h, Nat.pow_eq_zero]

theorem writeLanes_data_length (strb : Nat) (bytes : List Nat) :
    ∀ (lanes : List Nat) (m : Mem),
      (writeLanes strb bytes m lanes).data.length = m.data.length := by
  intro lanes
  induction lanes with
  | nil => intro m; rfl
  | cons i is ih =>
      intro m
      by_cases h : strb &&& (1 <<< i) ≠ 0
      · simp [writeLanes, h, ih, Mem.write1]
      · simp [writeLanes, h, ih, Mem.skip1]

theorem writeLanes_pos (strb : Nat) (bytes : List Nat) :
    ∀ (lanes : List Nat) (m : Mem),
      (writeLanes strb bytes m lanes).pos = m.pos + lanes.length := by
  intro lanes
  induction lanes with
  | nil => intro m; rfl
  | cons i is ih =>
      intro m
      by_cases h : strb &&& (1 <<< i) ≠ 0
      · simp only [writeLanes, if_pos h, ih, Mem.write1, List.length_cons]
        omega
      · simp only [writeLanes, if_neg h, ih, Mem.skip1, List.length_cons]
        omega

theorem writeLanes_getD_frame (strb : Nat) (bytes : List Nat) :
    ∀ (lanes : List Nat) (m : Mem) (j : Nat),
      (∀ t, t < lanes.length → (m.pos + t) % m.data.length ≠ j) →
      (writeLanes strb bytes m lanes).data.getD j 0 = m.data.getD j 0 := by
  intro lanes
  induction lanes with
  | nil => intro m j _; rfl
  | cons i is ih =>
      intro m j hj
      have hj0 : m.pos % m.data.length ≠ j := by
        have := hj 0 (by simp)
        simpa using this
      by_cases h : strb &&& (1 <<< i) ≠ 0
      · simp only [writeLanes, if_pos h]
        rw [ih]
        · exact getD_set_ne _ _ _ _ hj0
        · intro t ht
          have := hj (t + 1) (by simpa using Nat.succ_lt_succ ht)
          simp only [Mem.write1, List.length_set]
          have harith : m.pos + 1 + t = m.pos + (t + 1) := by omega
          rw [harith]
          exact this
      · simp only [writeLanes, if_neg h]
        rw [ih]
        · rfl
        · intro t ht
          have := hj (t + 1) (by simpa using Nat.succ_lt_succ ht)
          simp only [Mem.skip1]
          have harith : m.pos + 1 + t = m.pos + (t + 1) := by omega
          rw [harith]
          exact this

theorem writeLanes_getD_range (strb : Nat) (bytes : List Nat) :
    ∀ (n k t : Nat) (m : Mem), t < n → n ≤ m.data.length →
      (writeLanes strb bytes m (List.range' k n)).data.getD
          ((m.pos + t) % m.data.length) 0 =
        if strb.testBit (k + t) then bytes.getD (k + t) 0
        else m.data.getD ((m.pos + t) % m.data.length) 0 := by
  intro n
  induction n with
  | zero => intro k t m ht _; exact absurd ht (Nat.not_lt_zero t)
  | succ n ih =>
      intro k t m ht hn
      have hS : 0 < m.data.length := by omega
      rw [List.range'_succ]
      by_cases hbit : strb &&& (1 <<< k) ≠ 0
      · have hbit' : strb.testBit k = true := (and_shiftLeft_ne_zero strb k).mp hbit
        simp only [writeLanes, if_pos hbit]
        have hm1data : (m.write1 (bytes.getD k 0)).data
            = m.data.set (m.pos % m.data.length) (bytes.getD k 0) := rfl
        have hm1pos : (m.write1 (bytes.getD k 0)).pos = m.pos + 1 := rfl
        have hm1len : (m.write1 (bytes.getD k 0)).data.length = m.data.length := by
          rw [hm1data, List.length_set]
        cases t with
        | zero =>
            rw [writeLanes_getD_frame]
            · simp only [Nat.add_zero]
              rw [if_pos hbit', hm1data]
              exact getD_set_self _ _ _ (Nat.mod_lt _ hS)
            · intro s hs
              rw [hm1len, hm1pos, Nat.add_zero]
              have harith : m.pos + 1 + s = m.pos + (1 + s) := by omega
              rw [harith]
              simp only [List.length_range'] at hs
              exact mod_add_ne _ _ _ (by omega) (by omega)
        | succ s =>
            have hi := ih (k + 1) s (m.write1 (bytes.getD k 0)) (by omega)
              (by rw [hm1len]; omega)
            rw [hm1pos, hm1len] at hi
            have harith : m.pos + 1 + s = m.pos + (s + 1) := by omega
            rw [harith] at hi
            rw [hi]
            have harith2 : k + 1 + s = k + (s + 1) := by omega
            rw [harith2]
            by_cases hb2 : strb.testBit (k + (s + 1)) = true
            · rw [if_pos hb2, if_pos hb2]
            · rw [if_neg hb2, if_neg hb2, hm1data]
              exact getD_set_ne _ _ _ _
                ((mod_add_ne m.data.length m.pos (s + 1) (by omega) (by omega)).symm)
      · have hb : strb.testBit k = false := by
          rcases h' : strb.testBit k
          · rfl
          · exact absurd ((and_shiftLeft_ne_zero strb k).mpr h') hbit
        simp only [writeLanes, if_neg hbit]
        have hm1data : (m.skip1).data = m.data := rfl
        have hm1pos : (m.skip1).pos = m.pos + 1 := rfl
        cases t with
        | zero =>
            rw [writeLanes_getD_frame]
            · simp only [Nat.add_zero]
              rw [if_neg (by simp [hb]), hm1data]
            · intro s hs
              rw [hm1data, hm1pos, Nat.add_zero]
              have harith : m.pos + 1 + s = m.pos + (1 + s) := by omega
              rw [harith]
              simp only [List.length_range'] at hs
              exact mod_add_ne _ _ _ (by omega) (by omega)
        | succ s =>
            have hi := ih (k + 1) s m.skip1 (by omega) (by rw [hm1data]; omega)
            rw [hm1pos, hm1data] at hi
            have harith : m.pos + 1 + s = m.pos + (s + 1) := by omega
            rw [harith] at hi
            rw [hi]
            have harith2 : k + 1 + s = k + (s + 1) := by omega
            rw [harith2]

theorem writeLanes_zero_strb (bytes : List Nat) :
    ∀ (lanes : List Nat) (m : Mem),
      (writeLanes 0 bytes m lanes).data = m.data := by
  intro lanes
  induction lanes with
  | nil => intro m; rfl
  | cons i is ih =>
      intro m
      simp [writeLanes, Nat.zero_and, Mem.skip1, ih]

theorem toBytesLE_getD :
    ∀ (n x i : Nat), i < n → (toBytesLE n x).getD i 0 = x / 256 ^ i % 256 := by
  intro n
  induction n with
  | zero => intro x i hi; exact absurd hi (Nat.not_lt_zero i)
  | succ n ih =>
      intro x i hi
      cases i with
      | zero => simp [toBytesLE]
      | succ i =>
          simp only [toBytesLE, List.getD_cons_succ]
          rw [ih (x / 256) i (by omega), Nat.div_div_eq_div_mul]
          congr 2
          rw [pow_succ]
          ring

theorem toBytesLE_eq_map :
    ∀ (n x : Nat),
      toBytesLE n x = (List.range n).map (fun i => x / 256 ^ i % 256) := by
  intro n
  induction n with
  | zero => intro x; rfl
  | succ n ih =>
      intro x
      rw [List.range_succ_eq_map]
      simp only [toBytesLE, List.map_cons, List.map_map]
      congr 1
      · simp
      · rw [ih (x / 256)]
        refine List.map_congr_left ?_
        intro i _
        simp only [Function.comp]
        rw [Nat.div_div_eq_div_mul]
        congr 2
        rw [pow_succ]
        ring

theorem fromBytesLE_toBytesLE :
    ∀ (n x : Nat), x < 256 ^ n → fromBytesLE (toBytesLE n x) = x := by
  intro n
  induction n with
  | zero =>
      intro x hx
      simp only [toBytesLE, fromBytesLE]
      simp only [pow_zero] at hx
      omega
  | succ n ih =>
      intro x hx
      simp only [toBytesLE, fromBytesLE]
      rw [ih (x / 256) (by
        rw [pow_succ, Nat.mul_comm] at hx
        exact Nat.div_lt_of_lt_mul hx)]
      omega

theorem read_fst (n : Nat) :
    ∀ (m : Mem), (m.read n).1 = ⟨m.data, m.pos + n⟩ := by
  induction n with
  | zero => intro m; rfl
  | succ n ih =>
      intro m
      simp only [Mem.read, ih]
      congr 1
      omega

theorem read_snd (n : Nat) :
    ∀ (m : Mem), (m.read n).2 =
      (List.range n).map (fun i => m.data.getD ((m.pos + i) % m.data.length) 0) := by
  induction n with
  | zero => intro m; rfl
  | succ n ih =>
      intro m
      rw [List.range_succ_eq_map]
      simp only [Mem.read, ih, List.map_cons, List.map_map]
      congr 1
      refine List.map_congr_left ?_
      intro i _
      simp only [Function.comp]
      congr 2
      omega

theorem writeStep_snd (L : Nat) (m : Mem) (aw : AWBeat) (w : WBeat) :
    (writeStep L m aw w).2 = { bresp := OKAY } := rfl

theorem writeStep_fst (L : Nat) (m : Mem) (aw : AWBeat) (w : WBeat) :
    (writeStep L m aw w).1 =
      writeLanes (resolveWStrb L w) (toBytesLE L w.wdata)
        (m.seek ((aw.awaddr / L * L) % m.data.length)) (List.range L) := rfl

theorem writeStep_data_length (L : Nat) (m : Mem) (aw : AWBeat) (w : WBeat) :
    (writeStep L m aw w).1.data.length = m.data.length := by
  rw [writeStep_fst, writeLanes_data_length]
  rfl

theorem writeStep_getD (L : Nat) (m : Mem) (aw : AWBeat) (w : WBeat)
    (i : Nat) (hi : i < L) (hS : L ≤ m.data.length) :
    (writeStep L m aw w).1.data.getD
        ((aw.awaddr / L * L + i) % m.data.length) 0
      = if (resolveWStrb L w).testBit i
          then w.wdata / 256 ^ i % 256
          else m.data.getD ((aw.awaddr / L * L + i) % m.data.length) 0 := by
  have h1 := writeLanes_getD_range (resolveWStrb L w) (toBytesLE L w.wdata)
    L 0 i (m.seek ((aw.awaddr / L * L) % m.data.length)) hi hS
  simp only [Mem.seek, Nat.zero_add] at h1
  rw [Nat.mod_add_mod] at h1
  rw [toBytesLE_getD L w.wdata i hi] at h1
  rw [writeStep_fst, List.range_eq_range']
  simp only [Mem.seek]
  exact h1

theorem readStep_fst_data (L : Nat) (m : Mem) (ar : ARBeat) :
    (readStep L m ar).1.data = m.data := by
  simp only [readStep, Mem.seek]
  rw [read_fst]

theorem readStep_snd (L : Nat) (m : Mem) (ar : ARBeat) :
    (readStep L m ar).2 =
      { rdata := readValue L m.data ar.araddr, rresp := OKAY } := by
  simp only [readStep, Mem.seek]
  rw [read_snd]
  simp only [readValue]
  congr 2
  refine List.map_congr_left ?_
  intro i _
  simp only [Nat.mod_add_mod]

/-! ### Claim theorems -/

/-- C2: for a write with strobe mask `m`, exactly the byte lanes `i` with
bit `i` of the mask set are written (with the little-endian byte `i` of the
data word); every lane with bit `i` clear retains its pre-write store value;
and a write whose strobe wire carries 0 leaves the store byte-for-byte
unchanged. -/
theorem byte_lane_masking (L : Nat) (m : Mem) (aw : AWBeat) (w : WBeat)
    (hS : L ≤ m.data.length) :
    (∀ i, i < L → (resolveWStrb L w).testBit i = true →
        (writeStep L m aw w).1.data.getD
            ((aw.awaddr / L * L + i) % m.data.length) 0
          = w.wdata / 256 ^ i % 256)
  ∧ (∀ i, i < L → (resolveWStrb L w).testBit i = false →
        (writeStep L m aw w).1.data.getD
            ((aw.awaddr / L * L + i) % m.data.length) 0
          = m.data.getD ((aw.awaddr / L * L + i) % m.data.length) 0)
  ∧ (w.wstrb = some 0 → (writeStep L m aw w).1.data = m.data) := by
  refine ⟨?_, ?_, ?_⟩
  · intro i hi hb
    rw [writeStep_getD L m aw w i hi hS, if_pos hb]
  · intro i hi hb
    rw [writeStep_getD L m aw w i hi hS, if_neg (by simp [hb])]
  · intro h0
    have hstrb : resolveWStrb L w = 0 := by simp [resolveWStrb, h0]
    rw [writeStep_fst, hstrb, writeLanes_zero_strb]
    rfl

/-- C2 witness: data width 32 (4 lanes), strobe `0b0011`, data `0xAABBCCDD`
written to a 5-byte store at address 0: lane 0 takes byte `0xDD`. -/
theorem byte_lane_masking_witness :
    (writeStep 4 ⟨[1, 2, 3, 4, 5], 0⟩ ⟨0, none⟩
        ⟨0xAABBCCDD, some 3⟩).1.data.getD 0 0 = 0xDD := by
  have h := byte_lane_masking 4 ⟨[1, 2, 3, 4, 5], 0⟩ ⟨0, none⟩
    ⟨0xAABBCCDD, some 3⟩ (by decide)
  simpa using h.1 0 (by decide) (by decide)

/-- C4: both engines round the beat's address down to the byte-lane
alignment boundary: processing address `A` is identical to processing
`A / L * L`, which is the greatest multiple of `L` not exceeding `A`
(unaligned addresses are truncated, not rejected). -/
theorem alignment_truncation (L : Nat) (hL : 0 < L) (m : Mem)
    (aw : AWBeat) (w : WBeat) (ar : ARBeat) :
    writeStep L m aw w = writeStep L m { aw with awaddr := aw.awaddr / L * L } w
  ∧ readStep L m ar = readStep L m { ar with araddr := ar.araddr / L * L }
  ∧ L ∣ aw.awaddr / L * L
  ∧ aw.awaddr / L * L ≤ aw.awaddr
  ∧ aw.awaddr < aw.awaddr / L * L + L := by
  have hdiv : ∀ A : Nat, A / L * L / L * L = A / L * L := by
    intro A; rw [Nat.mul_div_cancel _ hL]
  refine ⟨?_, ?_, dvd_mul_left L _, Nat.div_mul_le_self _ _,
    Nat.lt_div_mul_add hL⟩
  · simp [writeStep, hdiv]
  · simp [readStep, hdiv]

/-- C4 witness: byte-lane count 4, address 7 is processed as address 4. -/
theorem alignment_truncation_witness :
    readStep 4 ⟨[9, 8, 7, 6, 5, 4, 3, 2], 0⟩ ⟨7, none⟩
      = readStep 4 ⟨[9, 8, 7, 6, 5, 4, 3, 2], 0⟩ ⟨4, none⟩ := by
  have h := alignment_truncation 4 (by decide) ⟨[9, 8, 7, 6, 5, 4, 3, 2], 0⟩
    ⟨0, none⟩ ⟨0, none⟩ ⟨7, none⟩
  simpa using h.2.1

/-- C5: accessed bytes wrap modulo the store size: a full-strobe write puts
little-endian byte `i` at offset `(effective_address + i) mod store_size`,
and a read takes byte `i` from the same wrapped offset — overflow past the
store end aliases back to offset 0 rather than erroring. -/
theorem address_wraparound (L : Nat) (m : Mem) (ar : ARBeat)
    (aw : AWBeat) (w : WBeat)
    (hfull : w.wstrb = some (2 ^ L - 1)) (hS : L ≤ m.data.length) :
    ((readStep L m ar).2.rdata
      = fromBytesLE ((List.range L).map
          (fun i => m.data.getD ((ar.araddr / L * L + i) % m.data.length) 0)))
  ∧ (∀ i, i < L →
      (writeStep L m aw w).1.data.getD
          ((aw.awaddr / L * L + i) % m.data.length) 0
        = w.wdata / 256 ^ i % 256) := by
  constructor
  · rw [readStep_snd]
    rfl
  · intro i hi
    rw [writeStep_getD L m aw w i hi hS,
      if_pos (by simp [resolveWStrb, hfull, Nat.testBit_two_pow_sub_one, hi])]

/-- C5 witness: store size 5, effective offset 4 (= S − 1), lane count 4:
lane 1 wraps to offset `(4 + 1) mod 5 = 0` and carries byte `0x0C`. -/
theorem address_wraparound_witness :
    (writeStep 4 ⟨[1, 2, 3, 4, 5], 0⟩ ⟨4, none⟩
        ⟨0x0A0B0C0D, some (2 ^ 4 - 1)⟩).1.data.getD 0 0 = 0x0C := by
  have h := address_wraparound 4 ⟨[1, 2, 3, 4, 5], 0⟩ ⟨0, none⟩ ⟨4, none⟩
    ⟨0x0A0B0C0D, some (2 ^ 4 - 1)⟩ rfl (by decide)
  simpa using h.2 1 (by decide)

/-- C6: round-trip — writing a data-width value `V` with full strobe at an
address and then reading the same address returns exactly `V`
(little-endian decomposition and packing are mutually inverse). -/
theorem write_read_roundtrip (L : Nat) (m : Mem) (A V : Nat)
    (hV : V < 2 ^ (8 * L)) (hS : L ≤ m.data.length) :
    (readStep L (writeStep L m ⟨A, none⟩ ⟨V, some (2 ^ L - 1)⟩).1
        ⟨A, none⟩).2.rdata = V := by
  have hlen : (writeStep L m ⟨A, none⟩ ⟨V, some (2 ^ L - 1)⟩).1.data.length
      = m.data.length := writeStep_data_length L m _ _
  rw [readStep_snd]
  simp only [readValue]
  have hbytes : ∀ i ∈ List.range L,
      (writeStep L m ⟨A, none⟩ ⟨V, some (2 ^ L - 1)⟩).1.data.getD
        ((A / L * L + i) %
          (writeStep L m ⟨A, none⟩ ⟨V, some (2 ^ L - 1)⟩).1.data.length) 0
      = V / 256 ^ i % 256 := by
    intro i hi
    have hmem := List.mem_range.mp hi
    rw [hlen]
    rw [writeStep_getD L m ⟨A, none⟩ ⟨V, some (2 ^ L - 1)⟩ i hmem hS,
      if_pos (by simp [resolveWStrb, Nat.testBit_two_pow_sub_one, hmem])]
  rw [List.map_congr_left hbytes, ← toBytesLE_eq_map]
  refine fromBytesLE_toBytesLE L V ?_
  have h256 : (256 : Nat) ^ L = 2 ^ (8 * L) := by
    rw [show (256 : Nat) = 2 ^ 8 from rfl, ← pow_mul]
  rw [h256]
  exact hV

/-- C6 witness: writing `0xAABBCCDD` with full strobe to a 5-byte store at
address 0 and reading it back returns `0xAABBCCDD`. -/
theorem write_read_roundtrip_witness :
    (readStep 4 (writeStep 4 ⟨[0, 0, 0, 0, 0], 0⟩ ⟨0, none⟩
        ⟨0xAABBCCDD, some (2 ^ 4 - 1)⟩).1 ⟨0, none⟩).2.rdata = 0xAABBCCDD :=
  write_read_roundtrip 4 ⟨[0, 0, 0, 0, 0], 0⟩ 0 0xAABBCCDD
    (by decide) (by decide)

/-- C9: the construction-time assertions pass exactly when the data width
is a whole multiple of 8 bits and the strobe width equals the derived
byte-lane count `width / 8`; any other configuration fails the assertions
and construction aborts. -/
theorem config_assertions (width strbWidth : Nat) :
    slaveConfigOk width strbWidth = true
      ↔ width % 8 = 0 ∧ strbWidth = width / 8 := by
  simp only [slaveConfigOk, writeConfigOk, readConfigOk, Bool.and_eq_true,
    beq_iff_eq]
  omega

/-- C10: the read engine never mutates the backing store — after any
sequence of read transactions the store bytes equal what they were
before. -/
theorem read_engine_frame (L : Nat) (m : Mem) (ars : List ARBeat) :
    (processReads L m ars).1.data = m.data := by
  induction ars generalizing m with
  | nil => rfl
  | cons ar ars ih =>
      simp only [processReads]
      rw [ih, readStep_fst_data]

/-- C1: for `N` write-address beats and `N` write-data beats, the write
engine pairs the `n`-th address beat with the `n`-th data beat in strict
FIFO order (the event trace is the per-pair blocks of the zipped queues,
in order), emits exactly `N` `OKAY` responses, one per pair and in pair
order, each response event following the pair's store mutation and data
receipt within its block, and the final store is the in-order fold of the
per-pair write steps. -/
theorem write_fifo_pairing (L : Nat) (m : Mem)
    (aws : List AWBeat) (ws : List WBeat) (h : aws.length = ws.length) :
    (processWrites L m aws ws).2.1
      = List.replicate aws.length { bresp := OKAY }
  ∧ (processWrites L m aws ws).2.2
      = (aws.zip ws).flatMap (fun p =>
          [WrEvent.recvAW p.1, WrEvent.recvW p.2, WrEvent.storeWrite,
           WrEvent.sendB { bresp := OKAY }])
  ∧ (processWrites L m aws ws).1
      = (aws.zip ws).foldl (fun mm p => (writeStep L mm p.1 p.2).1) m := by
  induction aws generalizing m ws with
  | nil =>
      cases ws with
      | nil => exact ⟨rfl, rfl, rfl⟩
      | cons w ws => exact absurd h (by simp)
  | cons aw aws ih =>
      cases ws with
      | nil => exact absurd h (by simp)
      | cons w ws =>
          have h' : aws.length = ws.length := by simpa using h
          obtain ⟨h1, h2, h3⟩ := ih (writeStep L m aw w).1 ws h'
          refine ⟨?_, ?_, ?_⟩
          · simp only [processWrites, List.length_cons, List.replicate_succ,
              writeStep_snd]
            rw [h1]
          · simp only [processWrites, writeStep_snd, List.zip_cons_cons,
              List.flatMap_cons, List.cons_append, List.nil_append]
            rw [h2]
          · simp only [processWrites, List.zip_cons_cons, List.foldl_cons]
            exact h3

/-- C1 witness: one address beat and one data beat produce exactly one
`OKAY` response. -/
theorem write_fifo_pairing_witness :
    (processWrites 1 ⟨[0, 0], 0⟩ [⟨0, none⟩] [⟨7, none⟩]).2.1
      = List.replicate 1 { bresp := OKAY } := by
  have h := write_fifo_pairing 1 ⟨[0, 0], 0⟩ [⟨0, none⟩] [⟨7, none⟩] rfl
  simpa using h.1

/-- C3: for any sequence of read-address beats, the read engine emits
exactly one read-data beat per address beat, in arrival order, each with
`OKAY` status and with data equal to the store bytes at the computed
wrapped offset (at the time of the read) packed little-endian. -/
theorem read_sequence_responses (L : Nat) (m : Mem) (ars : List ARBeat) :
    (processReads L m ars).2
      = ars.map (fun ar =>
          { rdata := readValue L m.data ar.araddr, rresp := OKAY }) := by
  induction ars generalizing m with
  | nil => rfl
  | cons ar ars ih =>
      simp only [processReads, List.map_cons]
      rw [readStep_snd, ih, readStep_fst_data]

/-- C7: the reset handlers keep at most one live processing task per
engine (the handle-held/live-task invariant is preserved), assertion kills
any running task and empties every channel queue of the interface (safe
also when no task runs, and in particular no queued pre-reset response
survives), and deassertion starts the loop only when no handle is held, so
deasserting while running is a no-op. -/
theorem reset_handler_props (sw : WriteCtrl) (sr : ReadCtrl) (b : Bool)
    (hw : sw.live = if sw.cr then 1 else 0)
    (hr : sr.live = if sr.cr then 1 else 0) :
    ((sw.handleReset b).live = if (sw.handleReset b).cr then 1 else 0)
  ∧ (sw.handleReset b).live ≤ 1
  ∧ (sw.handleReset true).cr = false
  ∧ (sw.handleReset true).awq = []
  ∧ (sw.handleReset true).wq = []
  ∧ (sw.handleReset true).bq = []
  ∧ (sw.cr = true → sw.handleReset false = sw)
  ∧ ((sr.handleReset b).live = if (sr.handleReset b).cr then 1 else 0)
  ∧ (sr.handleReset b).live ≤ 1
  ∧ (sr.handleReset true).cr = false
  ∧ (sr.handleReset true).arq = []
  ∧ (sr.handleReset true).rq = []
  ∧ (sr.cr = true → sr.handleReset false = sr) := by
  rcases sw with ⟨cw, lw, awq, wq, bq⟩
  rcases sr with ⟨cr, lr, arq, rq⟩
  cases cw <;> cases cr <;> cases b <;>
    simp_all [WriteCtrl.handleReset, ReadCtrl.handleReset]

/-- C7 witness: asserting reset on a running write engine stops it and
clears the queues; the read engine with no running task is unaffected by
the invariant. -/
theorem reset_handler_props_witness :
    ((⟨true, 1, [⟨3, none⟩], [], [⟨0⟩]⟩ : WriteCtrl).handleReset true).bq
      = [] := by
  have h := reset_handler_props ⟨true, 1, [⟨3, none⟩], [], [⟨0⟩]⟩
    ⟨false, 0, [], []⟩ true rfl rfl
  exact h.2.2.2.2.2.1

/-- C8: an address beat with no protection wire resolves to the fixed
non-secure default, and a data beat with no strobe wire resolves to the
all-lanes-enabled mask, so the write is processed exactly as a full
write. -/
theorem default_field_substitution (L : Nat) (m : Mem)
    (aw : AWBeat) (ar : ARBeat) (w : WBeat)
    (haw : aw.awprot = none) (har : ar.arprot = none)
    (hw : w.wstrb = none) :
    resolveAWProt aw = NONSECURE
  ∧ resolveARProt ar = NONSECURE
  ∧ resolveWStrb L w = 2 ^ L - 1
  ∧ writeStep L m aw w
      = writeStep L m aw { w with wstrb := some (2 ^ L - 1) } := by
  refine ⟨by simp [resolveAWProt, haw], by simp [resolveARProt, har],
    by simp [resolveWStrb, hw], ?_⟩
  simp [writeStep, resolveWStrb, hw]

/-- C8 witness: a data beat with absent strobe wire resolves to the mask
`0b1111` for 4 byte lanes and is processed as a full write. -/
theorem default_field_substitution_witness :
    resolveWStrb 4 ⟨0x12345678, none⟩ = 2 ^ 4 - 1 := by
  have h := default_field_substitution 4 ⟨[0, 0, 0, 0], 0⟩ ⟨0, none⟩
    ⟨0, none⟩ ⟨0x12345678, none⟩ rfl rfl rfl
  exact h.2.2.1

end AxilRam
